import Mathlib

/-!
Verification of the cdecao course-assignment program against its
specification.  The repository ships `src/io.rs` and the unit tests of the
`caobab` solver module (`src/caobab/tests.rs`); the solver module itself is
not among the files, so its functions are modelled from the specification
(doc comments of those definitions start with "Modelled from the spec"),
with the unit tests fixing the behaviour wherever they exercise it.
-/

namespace Cdecao

/-- Participant record, as constructed throughout `src/caobab/tests.rs`:
a dense index, an external database id, a display name and an ordered list
of chosen course indices. -/
structure Participant where
  index : Nat
  dbid : Nat
  name : String
  choices : List Nat
deriving Inhabited, DecidableEq

/-- Course record, as constructed throughout `src/caobab/tests.rs`:
a dense index, an external database id, a display name, the capacity bounds
`num_max` and `num_min`, and the list of instructor participant indices. -/
structure Course where
  index : Nat
  dbid : Nat
  name : String
  num_max : Nat
  num_min : Nat
  instructors : List Nat
deriving Inhabited, DecidableEq

/-- An assignment maps each participant position to a course index
(`type Assignment = Vec<usize>` in the repository). -/
abbrev Assignment := List Nat

/-- Branch-and-bound search node: the set of cancelled courses and the set
of enforced courses, kept as sorted lists of course indices
(constructed with struct literals in `src/caobab/tests.rs`). -/
structure BABNode where
  cancelled_courses : List Nat
  enforced_courses : List Nat
deriving Inhabited, DecidableEq

/-! ## Embedding of `src/io.rs` -/

/-- Translation of `assert_data_consitency` from `src/io.rs` (lines 61-84).
The Rust function panics on the first violated assertion and returns `()`
otherwise; the embedding returns `true` exactly when the Rust function
returns normally.  The Rust loops `for (i, p) in participants.iter().enumerate()`
become iteration over `List.range participants.length` with positional
lookup. -/
def assert_data_consitency (participants : List Participant) (courses : List Course) : Bool :=
  ((List.range participants.length).all fun i =>
    ((participants.getD i default).index == i) &&
    ((participants.getD i default).choices.all fun c => decide (c < courses.length)))
  &&
  ((List.range courses.length).all fun i =>
    ((courses.getD i default).index == i) &&
    ((courses.getD i default).instructors.all fun p => decide (p < participants.length)))

/-- Translation of `format_assignment` from `src/io.rs` (lines 32-57).
The outer Rust loop walks the course list, emitting a header per course; the
inner loop walks `assignment.iter().enumerate()` and emits the name of every
participant whose assigned course index equals the course's `index` field,
with an " (instr)" suffix when their position occurs in the course's
instructor list.  `participants[ap]` is modelled with `getD` (the Rust
indexing panics when the assignment is longer than the participant list). -/
def format_assignment (assignment : Assignment) (courses : List Course)
    (participants : List Participant) : String :=
  courses.foldl
    (fun result c =>
      (List.range assignment.length).foldl
        (fun result ap =>
          if assignment.getD ap 0 == c.index then
            result ++ (participants.getD ap default).name ++
              (if c.instructors.contains ap then " (instr)" else "") ++ "\n"
          else result)
        (result ++ "\n===== " ++ c.name ++ " =====\n"))
    ""

/-! ## Model of the `caobab` feasibility check -/

/-- Number of participants assigned to course `c`, not counting participants
marked in the `course_instructors` mask.  Mirrors the course-size computation
of the test helper `check_assignment` (`src/caobab/tests.rs` lines 262-268)
and the spec's "participant count (excluding its own instructors)". -/
def course_size (course_instructors : List Bool) (assignment : Assignment) (c : Nat) : Nat :=
  (List.range assignment.length).countP
    (fun p => !(course_instructors.getD p false) && (assignment.getD p 0 == c))

/-- The deficit of course `c`: its `num_min` minus its size, truncated at 0
(spec glossary: "Deficit: for a non-cancelled course,
max(0, num_min − assigned_count)"). -/
def deficit (courses : List Course) (course_instructors : List Bool)
    (assignment : Assignment) (c : Nat) : Nat :=
  (courses.getD c default).num_min - course_size course_instructors assignment c

/-- The branching course among the candidate course indices `l`: skipping
cancelled courses, pick the course with the largest deficit `d`, earliest
candidate winning ties.  Models the branching-oracle part of spec section 4.3
("the course with the largest (num_min − actual_size) deficit among
non-cancelled courses, ties broken by lowest index"). -/
def branch_course_aux (cancelled : List Nat) (d : Nat → Nat) : List Nat → Option Nat
  | [] => none
  | c :: rest =>
    if cancelled.contains c then branch_course_aux cancelled d rest
    else
      match branch_course_aux cancelled d rest with
      | none => some c
      | some b => if d b ≤ d c then some c else some b

/-- Modelled from the spec: `check_feasibility` belongs to the `caobab`
module, which is absent from the repository's files (only its unit tests
are present).  Following spec section 4.3 and the expectations of
`test_check_feasibility` (`src/caobab/tests.rs` lines 180-239), it returns:

* `feasible` — true iff every non-cancelled course's participant count
  (excluding mask-marked instructors) is at least its `num_min`, every
  cancelled course has zero such participants, and every mask-marked
  participant is assigned to every course they instruct;
* a second flag — true iff some participant not marked in the mask is
  assigned to a course that is not among their choices (the unit test at
  lines 221-238 fixes this flag to `true` on an input where every instructor
  sits in their own course, so the flag reports wrongly-assigned
  participants, not misplaced instructors);
* `branch_course` — `none` when feasible, otherwise the non-cancelled course
  with the largest deficit, ties broken by the lowest index. -/
def check_feasibility (courses : List Course) (participants : List Participant)
    (assignment : Assignment) (node : BABNode) (course_instructors : List Bool) :
    Bool × Bool × Option Nat :=
  let size : Nat → Nat := course_size course_instructors assignment
  let feasible : Bool :=
    ((List.range courses.length).all fun c =>
      if node.cancelled_courses.contains c then size c == 0
      else decide ((courses.getD c default).num_min ≤ size c))
    &&
    ((List.range participants.length).all fun p =>
      !(course_instructors.getD p false) ||
      ((List.range courses.length).all fun c =>
        !((courses.getD c default).instructors.contains p) || (assignment.getD p 0 == c)))
  let unwanted : Bool :=
    (List.range assignment.length).any fun p =>
      !(course_instructors.getD p false) &&
      !((participants.getD p default).choices.contains (assignment.getD p 0))
  let branch : Option Nat :=
    if feasible then none
    else
      branch_course_aux node.cancelled_courses
        (deficit courses course_instructors assignment)
        (List.range courses.length)
  (feasible, unwanted, branch)

/-- Modelled from the spec: the ordering of `BABNode` (spec section 3:
"compare by |cancelled| + |enforced| (deeper = larger), ties broken
lexicographically"), exercised by `test_babnode_sorting` in
`src/caobab/tests.rs` lines 146-178.  `compareList` is the lexicographic
comparison of the index lists. -/
def compareList : List Nat → List Nat → Ordering
  | [], [] => Ordering.eq
  | [], _ :: _ => Ordering.lt
  | _ :: _, [] => Ordering.gt
  | x :: xs, y :: ys =>
    match compare x y with
    | Ordering.eq => compareList xs ys
    | o => o

/-- Modelled from the spec: comparison of two branch-and-bound nodes, first
by total number of decisions (cancelled plus enforced courses), ties broken
lexicographically on the two lists. -/
def babnode_cmp (a b : BABNode) : Ordering :=
  match compare (a.cancelled_courses.length + a.enforced_courses.length)
      (b.cancelled_courses.length + b.enforced_courses.length) with
  | Ordering.eq =>
    match compareList a.cancelled_courses b.cancelled_courses with
    | Ordering.eq => compareList a.enforced_courses b.enforced_courses
    | o => o
  | o => o

/-- The three-course fixture `create_simple_problem` of
`src/caobab/tests.rs` (lines 7-76), translated field for field:
six participants with their choice lists, and three courses with capacities
(2,2), (8,2), (10,2) (as (num_max, num_min)) and one instructor each. -/
def create_simple_problem : List Participant × List Course :=
  ([⟨0, 0, "Participant 0", [1, 2]⟩,
    ⟨1, 1, "Participant 1", [0, 2]⟩,
    ⟨2, 2, "Participant 2", [0, 1]⟩,
    ⟨3, 3, "Participant 3", [0, 1]⟩,
    ⟨4, 4, "Participant 4", [0, 2]⟩,
    ⟨5, 5, "Participant 5", [1, 2]⟩],
   [⟨0, 0, "Wanted Course 0", 2, 2, [0]⟩,
    ⟨1, 1, "Okay Course 1", 8, 2, [1]⟩,
    ⟨2, 2, "Boring Course 2", 10, 2, [2]⟩])

/-! ## Model of the `caobab` precomputation -/

/-- Modelled from the spec: the preference weight base offset W₀ (spec
section 3: "a large positive base offset (implementation choice ~50 000)").
The unit test `test_precompute_problem` fixes the weight schedule to
`[WEIGHT_OFFSET, WEIGHT_OFFSET-1, WEIGHT_OFFSET-2]`
(`src/caobab/tests.rs` line 109). -/
def WEIGHT_OFFSET : Nat := 50000

/-- Position of course `c` in a choice list; mirrors the Rust
`p.choices.iter().position(|x| *x == c)` used by the unit test
(`src/caobab/tests.rs` line 112). -/
def choice_position (c : Nat) : List Nat → Option Nat
  | [] => none
  | x :: rest => if x == c then some 0 else (choice_position c rest).map (· + 1)

/-- Weight of the matrix entry between a participant and a column of course
`c`: the k-th schedule weight `WEIGHT_OFFSET - k` when `c` is the
participant's k-th choice, 0 otherwise (spec section 3). -/
def choice_weight (p : Participant) (c : Nat) : Nat :=
  match choice_position c p.choices with
  | some k => WEIGHT_OFFSET - k
  | none => 0

/-- Column-to-course map: `num_max` consecutive columns per course, courses
labelled from `lab` upward. -/
def course_map_from (lab : Nat) : List Course → List Nat
  | [] => []
  | c :: rest => List.replicate c.num_max lab ++ course_map_from (lab + 1) rest

/-- Course-to-first-column map: the running sum of the `num_max` values,
starting at column `base`. -/
def inverse_course_map_from (base : Nat) : List Course → List Nat
  | [] => []
  | c :: rest => base :: inverse_course_map_from (base + c.num_max) rest

/-- The precomputed problem data shared by all branch-and-bound nodes (spec
section 3): the N×N adjacency matrix, the column-to-course map, the
course-to-first-column map and the dummy-row mask. -/
structure Problem where
  adjacency_matrix : List (List Nat)
  course_map : List Nat
  inverse_course_map : List Nat
  dummy_x : List Bool

/-- Modelled from the spec: `precompute_problem` (spec sections 3 and 4.1)
belongs to the `caobab` module, absent from the repository's files; its
behaviour is fixed by `test_precompute_problem` (`src/caobab/tests.rs`
lines 78-144).  N = Σ num_max; rows 0..P-1 carry the preference weights of
the real participants against each column's owning course, rows P..N-1 are
all-zero dummy rows, and `dummy_x` marks exactly the dummy rows. -/
def precompute_problem (courses : List Course) (participants : List Participant) : Problem :=
  let n := (courses.map Course.num_max).sum
  let cmap := course_map_from 0 courses
  ⟨(List.range n).map fun x =>
      (List.range n).map fun y =>
        if x < participants.length
        then choice_weight (participants.getD x default) (cmap.getD y 0)
        else 0,
    cmap,
    inverse_course_map_from 0 courses,
    (List.range n).map fun x => decide (participants.length ≤ x)⟩

/-! ## Helper lemmas -/

/-- Indexing a mapped range evaluates the function. -/
theorem getD_range_map {α : Type} (f : Nat → α) (n x : Nat) (d : α) (hx : x < n) :
    ((List.range n).map f).getD x d = f x := by
  rw [List.getD_eq_getElem _ _ (by simpa using hx)]
  simp

/-- `course_map_from` has one entry per column. -/
theorem course_map_from_length (lab : Nat) :
    ∀ cs : List Course, (course_map_from lab cs).length = (cs.map Course.num_max).sum := by
  intro cs
  induction cs generalizing lab with
  | nil => simp [course_map_from]
  | cons c rest ih => simp [course_map_from, ih]

/-- `inverse_course_map_from` has one entry per course. -/
theorem inverse_course_map_from_length (base : Nat) :
    ∀ cs : List Course, (inverse_course_map_from base cs).length = cs.length := by
  intro cs
  induction cs generalizing base with
  | nil => simp [inverse_course_map_from]
  | cons c rest ih => simp [inverse_course_map_from, ih]

/-- Every first-column entry is at least the starting column. -/
theorem inverse_course_map_from_le (base : Nat) (cs : List Course) :
    ∀ i, i < cs.length → base ≤ (inverse_course_map_from base cs).getD i 0 := by
  induction cs generalizing base with
  | nil => intro i hi; simp at hi
  | cons c rest ih =>
    intro i hi
    cases i with
    | zero => simp [inverse_course_map_from]
    | succ j =>
      have hj : j < rest.length := by simpa using hi
      have := ih (base + c.num_max) j hj
      rw [inverse_course_map_from, List.getD_cons_succ]
      omega

/-- Column `inverse_course_map[i] + j` belongs to course `i` whenever
`j < num_max i`: the central indexing fact of the precomputation. -/
theorem course_map_from_getD :
    ∀ (cs : List Course) (lab base i j : Nat), i < cs.length →
      j < (cs.getD i default).num_max →
      (course_map_from lab cs).getD
        ((inverse_course_map_from base cs).getD i 0 - base + j) 0 = lab + i := by
  intro cs
  induction cs with
  | nil => intro lab base i j hi _; simp at hi
  | cons c rest ih =>
    intro lab base i j hi hj
    cases i with
    | zero =>
      have hj' : j < c.num_max := by simpa using hj
      rw [course_map_from, inverse_course_map_from, List.getD_cons_zero,
        Nat.sub_self, Nat.zero_add]
      rw [List.getD_append _ _ _ _ (by simpa using hj')]
      rw [List.getD_eq_getElem _ _ (by simpa using hj')]
      simp
    | succ i' =>
      have hi' : i' < rest.length := by simpa using hi
      have hj' : j < (rest.getD i' default).num_max := by simpa using hj
      rw [course_map_from, inverse_course_map_from, List.getD_cons_succ]
      have hle := inverse_course_map_from_le (base + c.num_max) rest i' hi'
      have harith :
          (inverse_course_map_from (base + c.num_max) rest).getD i' 0 - base + j =
            c.num_max +
              ((inverse_course_map_from (base + c.num_max) rest).getD i' 0 -
                (base + c.num_max) + j) := by
        omega
      rw [harith]
      rw [List.getD_append_right _ _ _ _ (by simp)]
      simp only [List.length_replicate]
      rw [Nat.add_sub_cancel_left]
      rw [ih (lab + 1) (base + c.num_max) i' j hi' hj']
      omega

/-- The branching search returns `none` exactly when every candidate course
is cancelled. -/
theorem branch_course_aux_eq_none (cancelled : List Nat) (d : Nat → Nat) (l : List Nat) :
    branch_course_aux cancelled d l = none ↔ ∀ c ∈ l, c ∈ cancelled := by
  induction l with
  | nil => simp [branch_course_aux]
  | cons a rest ih =>
    by_cases ha : a ∈ cancelled
    · rw [branch_course_aux, if_pos (by simpa using ha)]
      simp [ha, ih]
    · rw [branch_course_aux, if_neg (by simpa using ha)]
      have hne : (match branch_course_aux cancelled d rest with
          | none => some a
          | some b => if d b ≤ d a then some a else some b) ≠ none := by
        cases branch_course_aux cancelled d rest with
        | none => simp
        | some b =>
          have hred : (match some b with
              | none => some a
              | some b => if d b ≤ d a then some a else some b) =
              (if d b ≤ d a then some a else some b) := rfl
          rw [hred]
          split <;> simp
      constructor
      · intro h
        exact absurd h hne
      · intro h
        exact absurd (h a (List.mem_cons_self a rest)) ha

/-- When the branching search returns `some b` on a strictly increasing
candidate list, `b` is a non-cancelled candidate whose deficit value is
maximal, and every earlier non-cancelled candidate has a strictly smaller
value (ties are won by the lowest index). -/
theorem branch_course_aux_eq_some (cancelled : List Nat) (d : Nat → Nat) :
    ∀ l : List Nat, l.Pairwise (· < ·) → ∀ b : Nat,
      branch_course_aux cancelled d l = some b →
      b ∈ l ∧ b ∉ cancelled ∧
      (∀ c ∈ l, c ∉ cancelled → d c ≤ d b) ∧
      (∀ c ∈ l, c < b → c ∉ cancelled → d c < d b) := by
  intro l
  induction l with
  | nil => intro _ b h; simp [branch_course_aux] at h
  | cons a rest ih =>
    intro hsorted b h
    have hs := List.pairwise_cons.mp hsorted
    by_cases ha : a ∈ cancelled
    · rw [branch_course_aux, if_pos (by simpa using ha)] at h
      obtain ⟨hb1, hb2, hb3, hb4⟩ := ih hs.2 b h
      refine ⟨List.mem_cons_of_mem a hb1, hb2, ?_, ?_⟩
      · intro c hc hcc
        rcases List.mem_cons.mp hc with rfl | hc'
        · exact absurd ha hcc
        · exact hb3 c hc' hcc
      · intro c hc hcb hcc
        rcases List.mem_cons.mp hc with rfl | hc'
        · exact absurd ha hcc
        · exact hb4 c hc' hcb hcc
    · rw [branch_course_aux, if_neg (by simpa using ha)] at h
      cases haux : branch_course_aux cancelled d rest with
      | none =>
        rw [haux] at h
        have hb : b = a := by simpa using h.symm
        subst hb
        have hall := (branch_course_aux_eq_none cancelled d rest).mp haux
        refine ⟨List.mem_cons_self b rest, ha, ?_, ?_⟩
        · intro c hc hcc
          rcases List.mem_cons.mp hc with rfl | hc'
          · exact le_refl _
          · exact absurd (hall c hc') hcc
        · intro c hc hcb hcc
          rcases List.mem_cons.mp hc with rfl | hc'
          · omega
          · exact absurd (hall c hc') hcc
      | some b' =>
        rw [haux] at h
        have h2 : (if d b' ≤ d a then some a else some b') = some b := h
        obtain ⟨h1', h2', h3', h4'⟩ := ih hs.2 b' haux
        by_cases hle : d b' ≤ d a
        · rw [if_pos hle] at h2
          have hb : b = a := by simpa using h2.symm
          subst hb
          refine ⟨List.mem_cons_self b rest, ha, ?_, ?_⟩
          · intro c hc hcc
            rcases List.mem_cons.mp hc with rfl | hc'
            · exact le_refl _
            · exact le_trans (h3' c hc' hcc) hle
          · intro c hc hcb hcc
            rcases List.mem_cons.mp hc with rfl | hc'
            · omega
            · exact absurd hcb (by have := hs.1 c hc'; omega)
        · rw [if_neg hle] at h2
          have hb : b = b' := by simpa using h2.symm
          subst hb
          refine ⟨List.mem_cons_of_mem a h1', h2', ?_, ?_⟩
          · intro c hc hcc
            rcases List.mem_cons.mp hc with rfl | hc'
            · omega
            · exact h3' c hc' hcc
          · intro c hc hcb hcc
            rcases List.mem_cons.mp hc with rfl | hc'
            · omega
            · exact h4' c hc' hcb hcc

/-- When `choice_position` finds `c` at position `k`, then `k` is within
the list, the k-th entry is `c`, and no earlier entry is `c`. -/
theorem choice_position_eq_some (c : Nat) :
    ∀ (l : List Nat) (k : Nat), choice_position c l = some k →
      k < l.length ∧ l.getD k 0 = c ∧ ∀ k', k' < k → l.getD k' 0 ≠ c := by
  intro l
  induction l with
  | nil => intro k h; simp [choice_position] at h
  | cons x rest ih =>
    intro k h
    rw [choice_position] at h
    by_cases hx : (x == c) = true
    · rw [if_pos hx] at h
      have hk : k = 0 := by simpa using h.symm
      subst hk
      have hxc : x = c := by simpa using hx
      exact ⟨by simp, by simpa using hxc, fun k' hk' => absurd hk' (by omega)⟩
    · rw [if_neg hx] at h
      cases hpos : choice_position c rest with
      | none => rw [hpos] at h; simp at h
      | some k0 =>
        rw [hpos] at h
        have hk : k = k0 + 1 := by simpa using h.symm
        subst hk
        obtain ⟨h1, h2, h3⟩ := ih k0 hpos
        refine ⟨by simpa using h1, by simpa using h2, ?_⟩
        intro k' hk'
        cases k' with
        | zero =>
          have hxc : ¬ x = c := by simpa using hx
          simpa using hxc
        | succ k'' =>
          rw [List.getD_cons_succ]
          exact h3 k'' (by omega)

/-- Converse: the first occurrence of `c` at position `k` is found by
`choice_position`. -/
theorem choice_position_eq_some_of (c : Nat) :
    ∀ (l : List Nat) (k : Nat), k < l.length → l.getD k 0 = c →
      (∀ k', k' < k → l.getD k' 0 ≠ c) → choice_position c l = some k := by
  intro l
  induction l with
  | nil => intro k hk; simp at hk
  | cons x rest ih =>
    intro k hk hget hmin
    rw [choice_position]
    cases k with
    | zero =>
      have hxc : x = c := by simpa using hget
      rw [if_pos (by simpa using hxc)]
    | succ k0 =>
      have hxc : ¬ x = c := by simpa using hmin 0 (by omega)
      rw [if_neg (by simpa using hxc)]
      rw [ih k0 (by simpa using hk) (by simpa using hget)
        (fun k' hk' => by simpa using hmin (k' + 1) (by omega))]
      rfl

/-- `choice_position` finds nothing when `c` is not in the list. -/
theorem choice_position_eq_none_of (c : Nat) :
    ∀ l : List Nat, c ∉ l → choice_position c l = none := by
  intro l
  induction l with
  | nil => intro _; rfl
  | cons x rest ih =>
    intro h
    rw [choice_position]
    have hxc : ¬ x = c := by
      intro he
      subst he
      exact h (List.mem_cons_self x rest)
    rw [if_neg (by simpa using hxc)]
    rw [ih (fun hm => h (List.mem_cons_of_mem _ hm))]
    rfl

/-- Lexicographic list comparison returns `eq` exactly on equal lists. -/
theorem compareList_eq_iff : ∀ x y : List Nat, compareList x y = Ordering.eq ↔ x = y := by
  intro x
  induction x with
  | nil => intro y; cases y <;> simp [compareList]
  | cons a xs ih =>
    intro y
    cases y with
    | nil => simp [compareList]
    | cons b ys =>
      cases hab : compare a b with
      | lt =>
        have hne : a ≠ b := by have := Nat.compare_eq_lt.mp hab; omega
        simp [compareList, hab, hne]
      | eq =>
        have heq : a = b := Nat.compare_eq_eq.mp hab
        subst heq
        simp [compareList, hab, ih]
      | gt =>
        have hne : a ≠ b := by have := Nat.compare_eq_gt.mp hab; omega
        simp [compareList, hab, hne]

/-! ## Claim theorems -/

/-- Claim C1 (amended): `check_feasibility` returns `true` in its first
component iff every cancelled course has zero assigned non-mask
participants, every non-cancelled course has at least `num_min` of them,
and every participant marked in the `course_instructors` mask is assigned
to every course they instruct.  (The claim's `num_max` upper bound is not
part of the check; see the counterexample.) -/
theorem check_feasibility_feasible_iff (courses : List Course) (participants : List Participant)
    (assignment : Assignment) (node : BABNode) (course_instructors : List Bool) :
    (check_feasibility courses participants assignment node course_instructors).1 = true ↔
      ((∀ c, c < courses.length → c ∈ node.cancelled_courses →
          course_size course_instructors assignment c = 0) ∧
       (∀ c, c < courses.length → c ∉ node.cancelled_courses →
          (courses.getD c default).num_min ≤ course_size course_instructors assignment c) ∧
       (∀ p, p < participants.length → course_instructors.getD p false = true →
          ∀ c, c < courses.length → p ∈ (courses.getD c default).instructors →
            assignment.getD p 0 = c)) := by
  have hmain : (check_feasibility courses participants assignment node course_instructors).1 =
      (((List.range courses.length).all fun c =>
        if node.cancelled_courses.contains c
        then course_size course_instructors assignment c == 0
        else decide ((courses.getD c default).num_min ≤
          course_size course_instructors assignment c))
      &&
      ((List.range participants.length).all fun p =>
        !(course_instructors.getD p false) ||
        ((List.range courses.length).all fun c =>
          !((courses.getD c default).instructors.contains p) ||
          (assignment.getD p 0 == c)))) := rfl
  rw [hmain]
  simp only [Bool.and_eq_true, List.all_eq_true, List.mem_range]
  constructor
  · rintro ⟨h1, h2⟩
    refine ⟨fun c hc hmem => ?_, fun c hc hmem => ?_, fun p hp hmask c hc hins => ?_⟩
    · have hx := h1 c hc
      rw [if_pos (by simpa using hmem)] at hx
      simpa using hx
    · have hx := h1 c hc
      rw [if_neg (by simpa using hmem)] at hx
      simpa using hx
    · have hx := h2 p hp
      rw [Bool.or_eq_true] at hx
      rcases hx with hl | hr
      · rw [Bool.not_eq_true'] at hl
        rw [hmask] at hl
        cases hl
      · have hy := (List.all_eq_true.mp hr) c (List.mem_range.mpr hc)
        rw [Bool.or_eq_true] at hy
        rcases hy with hyl | hyr
        · rw [Bool.not_eq_true'] at hyl
          have hcontains : (courses.getD c default).instructors.contains p = true :=
            List.elem_iff.mpr hins
          rw [hcontains] at hyl
          simp at hyl
        · simpa using hyr
  · rintro ⟨hz, hmin, hmask⟩
    constructor
    · intro c hc
      by_cases hmem : c ∈ node.cancelled_courses
      · rw [if_pos (by simpa using hmem)]
        simpa using hz c hc hmem
      · rw [if_neg (by simpa using hmem)]
        simpa using hmin c hc hmem
    · intro p hp
      rw [Bool.or_eq_true]
      by_cases hm : course_instructors.getD p false = true
      · right
        rw [List.all_eq_true]
        intro c hcmem
        have hc := List.mem_range.mp hcmem
        rw [Bool.or_eq_true]
        by_cases hins : p ∈ (courses.getD c default).instructors
        · right
          simpa using hmask p hp hm c hc hins
        · left
          simpa using hins
      · left
        simp [Bool.not_eq_true'] at hm ⊢
        exact hm

/-- Claim C1, counterexample to the claim as stated: a course with
`num_min = num_max = 1` receives two non-instructor participants, so its
size is not within `[num_min, num_max]`, yet `check_feasibility` reports
the assignment feasible — the check has no upper bound (the relaxation can
never overfill a course, as each course only owns `num_max` columns). -/
theorem check_feasibility_ignores_num_max :
    (check_feasibility [⟨0, 0, "A", 1, 1, []⟩]
        [⟨0, 0, "p", [0]⟩, ⟨1, 1, "q", [0]⟩] [0, 0] ⟨[], []⟩ [false, false]).1 = true ∧
    ¬(course_size [false, false] [0, 0] 0 ≤ (Course.mk 0 0 "A" 1 1 []).num_max) := by
  decide

/-- Claim C2 (amended): the second component of `check_feasibility` is true
iff at least one participant not marked in the `course_instructors` mask is
assigned to a course that is not among their choices. -/
theorem check_feasibility_snd_iff (courses : List Course) (participants : List Participant)
    (assignment : Assignment) (node : BABNode) (course_instructors : List Bool) :
    (check_feasibility courses participants assignment node course_instructors).2.1 = true ↔
      ∃ p, p < assignment.length ∧ course_instructors.getD p false = false ∧
        assignment.getD p 0 ∉ (participants.getD p default).choices := by
  have hmain : (check_feasibility courses participants assignment node course_instructors).2.1 =
      ((List.range assignment.length).any fun p =>
        !(course_instructors.getD p false) &&
        !((participants.getD p default).choices.contains (assignment.getD p 0))) := rfl
  rw [hmain]
  simp [List.any_eq_true, List.mem_range, Bool.and_eq_true, Bool.not_eq_true']

/-- Claim C2, counterexample to the claim as stated: on the unit-test input
of `src/caobab/tests.rs` lines 221-238 every instructor of every
(non-cancelled) course sits in the course they instruct, yet the second
component is `true` (as the unit test demands), because participants 4 and 5
are assigned to courses outside their choices.  The flag therefore does not
report misplaced instructors. -/
theorem check_feasibility_snd_without_misplaced_instructor :
    (check_feasibility create_simple_problem.2 create_simple_problem.1
        [0, 1, 2, 0, 1, 0] ⟨[], [0]⟩ [true, true, true, false, false, false]).2.1 = true ∧
    (∀ c, c < create_simple_problem.2.length →
      ∀ p ∈ (create_simple_problem.2.getD c default).instructors,
        [0, 1, 2, 0, 1, 0].getD p 0 = c) := by
  decide

/-- Claim C3 (amended): the third component of `check_feasibility` is `none`
when the assignment is feasible; when it is infeasible and at least one
course is non-cancelled, it is `some b` for the non-cancelled course `b`
with the largest deficit (`num_min` minus assigned non-mask participants,
truncated at zero), ties broken by the lowest course index; when every
course is cancelled it is `none`. -/
theorem check_feasibility_branch_characterization (courses : List Course)
    (participants : List Participant) (assignment : Assignment) (node : BABNode)
    (course_instructors : List Bool) :
    ((check_feasibility courses participants assignment node course_instructors).1 = true →
      (check_feasibility courses participants assignment node course_instructors).2.2 = none) ∧
    ((check_feasibility courses participants assignment node course_instructors).1 = false →
      (((∀ c, c < courses.length → c ∈ node.cancelled_courses) →
          (check_feasibility courses participants assignment node course_instructors).2.2 =
            none) ∧
       (∀ c₀, c₀ < courses.length → c₀ ∉ node.cancelled_courses →
          ∃ b, (check_feasibility courses participants assignment node course_instructors).2.2 =
              some b ∧
            b < courses.length ∧ b ∉ node.cancelled_courses ∧
            (∀ c, c < courses.length → c ∉ node.cancelled_courses →
              deficit courses course_instructors assignment c ≤
                deficit courses course_instructors assignment b) ∧
            (∀ c, c < b → c ∉ node.cancelled_courses →
              deficit courses course_instructors assignment c <
                deficit courses course_instructors assignment b)))) := by
  have hmain : (check_feasibility courses participants assignment node course_instructors).2.2 =
      (if (check_feasibility courses participants assignment node course_instructors).1 = true
       then none
       else branch_course_aux node.cancelled_courses
         (deficit courses course_instructors assignment) (List.range courses.length)) := rfl
  constructor
  · intro h1
    rw [hmain, h1]
    simp
  · intro h1
    rw [hmain, h1]
    simp only [Bool.false_eq_true, if_false]
    constructor
    · intro hall
      exact (branch_course_aux_eq_none _ _ _).mpr
        (fun c hc => hall c (List.mem_range.mp hc))
    · intro c₀ hc₀ hcc₀
      cases haux : branch_course_aux node.cancelled_courses
          (deficit courses course_instructors assignment) (List.range courses.length) with
      | none =>
        have hall := (branch_course_aux_eq_none _ _ _).mp haux
        exact absurd (hall c₀ (List.mem_range.mpr hc₀)) hcc₀
      | some b =>
        obtain ⟨hb1, hb2, hb3, hb4⟩ :=
          branch_course_aux_eq_some node.cancelled_courses
            (deficit courses course_instructors assignment)
            (List.range courses.length) (List.pairwise_lt_range courses.length) b haux
        refine ⟨b, rfl, List.mem_range.mp hb1, hb2, ?_, ?_⟩
        · intro c hc hcc
          exact hb3 c (List.mem_range.mpr hc) hcc
        · intro c hcb hcc
          have hc : c < courses.length := lt_trans hcb (List.mem_range.mp hb1)
          exact hb4 c (List.mem_range.mpr hc) hcb hcc

/-- Claim C3, counterexample to the claim as stated: the single course is
cancelled and has one assigned participant, so the check reports infeasible,
but the third component is `none` — there is no non-cancelled course to
identify, so the claimed `some c` is impossible. -/
theorem check_feasibility_branch_none_infeasible :
    (check_feasibility [⟨0, 0, "A", 1, 1, []⟩] [⟨0, 0, "p", []⟩]
        [0] ⟨[0], []⟩ [false]).1 = false ∧
    (check_feasibility [⟨0, 0, "A", 1, 1, []⟩] [⟨0, 0, "p", []⟩]
        [0] ⟨[0], []⟩ [false]).2.2 = none := by
  decide

/-- Claim C6: for the branch-and-bound node ordering, `a < b` implies that
`a` has at most as many total decisions as `b`; a node with strictly fewer
total decisions compares strictly smaller; and two nodes only compare equal
when their cancelled and enforced course lists coincide. -/
theorem babnode_cmp_spec (a b : BABNode) :
    (babnode_cmp a b = Ordering.lt →
      a.cancelled_courses.length + a.enforced_courses.length ≤
        b.cancelled_courses.length + b.enforced_courses.length) ∧
    (a.cancelled_courses.length + a.enforced_courses.length <
        b.cancelled_courses.length + b.enforced_courses.length →
      babnode_cmp a b = Ordering.lt) ∧
    (babnode_cmp a b = Ordering.eq →
      a.cancelled_courses = b.cancelled_courses ∧ a.enforced_courses = b.enforced_courses) := by
  refine ⟨?_, ?_, ?_⟩
  · intro h
    cases htot : compare (a.cancelled_courses.length + a.enforced_courses.length)
        (b.cancelled_courses.length + b.enforced_courses.length) with
    | lt => have := Nat.compare_eq_lt.mp htot; omega
    | eq => have := Nat.compare_eq_eq.mp htot; omega
    | gt => rw [babnode_cmp, htot] at h; cases h
  · intro h
    rw [babnode_cmp, Nat.compare_eq_lt.mpr h]
  · intro h
    cases htot : compare (a.cancelled_courses.length + a.enforced_courses.length)
        (b.cancelled_courses.length + b.enforced_courses.length) with
    | lt => rw [babnode_cmp, htot] at h; cases h
    | gt => rw [babnode_cmp, htot] at h; cases h
    | eq =>
      rw [babnode_cmp, htot] at h
      cases hcan : compareList a.cancelled_courses b.cancelled_courses with
      | lt => rw [hcan] at h; cases h
      | gt => rw [hcan] at h; cases h
      | eq =>
        rw [hcan] at h
        exact ⟨(compareList_eq_iff _ _).mp hcan, (compareList_eq_iff _ _).mp h⟩

/-- Claim C4: `precompute_problem` returns an N×N adjacency matrix with
N = Σ num_max, a length-N `course_map` and `dummy_x`, a length-C
`inverse_course_map`, and for every course `c` and offset
`j < num_max c`, column `inverse_course_map[c] + j` is mapped to course
`c`. -/
theorem precompute_problem_wellformed (courses : List Course)
    (participants : List Participant) :
    ((precompute_problem courses participants).adjacency_matrix.length =
        (courses.map Course.num_max).sum ∧
      ∀ row ∈ (precompute_problem courses participants).adjacency_matrix,
        row.length = (courses.map Course.num_max).sum) ∧
    (precompute_problem courses participants).course_map.length =
      (courses.map Course.num_max).sum ∧
    (precompute_problem courses participants).dummy_x.length =
      (courses.map Course.num_max).sum ∧
    (precompute_problem courses participants).inverse_course_map.length =
      courses.length ∧
    (∀ c, c < courses.length → ∀ j, j < (courses.getD c default).num_max →
      (precompute_problem courses participants).course_map.getD
        ((precompute_problem courses participants).inverse_course_map.getD c 0 + j)
        0 = c) := by
  refine ⟨⟨?_, ?_⟩, ?_, ?_, ?_, ?_⟩
  · simp [precompute_problem]
  · intro row hrow
    simp only [precompute_problem, List.mem_map, List.mem_range] at hrow
    obtain ⟨x, _, rfl⟩ := hrow
    simp
  · simpa [precompute_problem] using course_map_from_length 0 courses
  · simp [precompute_problem]
  · simpa [precompute_problem] using inverse_course_map_from_length 0 courses
  · intro c hc j hj
    have h := course_map_from_getD courses 0 0 c j hc hj
    rw [Nat.sub_zero, Nat.zero_add] at h
    exact h

/-- Claim C5: in the adjacency matrix, the entry of a real participant row
`x < P` at column `y` equals the k-th schedule weight `WEIGHT_OFFSET - k`
when the column's owning course is x's k-th choice (first occurrence), and
0 when it is none of x's choices; every dummy row `P ≤ x < N` is all zero;
and `dummy_x` is true exactly for the dummy rows.  The hypothesis `P ≤ N`
is the precondition of spec section 4.1 ("well-defined only if P ≤ N"). -/
theorem precompute_problem_weights (courses : List Course)
    (participants : List Participant)
    (hPN : participants.length ≤ (courses.map Course.num_max).sum) :
    (∀ x, x < participants.length →
      ∀ y, y < (courses.map Course.num_max).sum →
      (∀ k, k < (participants.getD x default).choices.length →
        (participants.getD x default).choices.getD k 0 =
          (precompute_problem courses participants).course_map.getD y 0 →
        (∀ k', k' < k →
          (participants.getD x default).choices.getD k' 0 ≠
            (precompute_problem courses participants).course_map.getD y 0) →
        ((precompute_problem courses participants).adjacency_matrix.getD x
            []).getD y 0 = WEIGHT_OFFSET - k) ∧
      ((precompute_problem courses participants).course_map.getD y 0 ∉
          (participants.getD x default).choices →
        ((precompute_problem courses participants).adjacency_matrix.getD x
            []).getD y 0 = 0)) ∧
    (∀ x, participants.length ≤ x → x < (courses.map Course.num_max).sum →
      ∀ y, y < (courses.map Course.num_max).sum →
      ((precompute_problem courses participants).adjacency_matrix.getD x
          []).getD y 0 = 0) ∧
    (∀ x, x < (courses.map Course.num_max).sum →
      ((precompute_problem courses participants).dummy_x.getD x false = true ↔
        participants.length ≤ x)) := by
  have hcmap : (precompute_problem courses participants).course_map =
      course_map_from 0 courses := rfl
  have hentry : ∀ x, x < (courses.map Course.num_max).sum →
      ∀ y, y < (courses.map Course.num_max).sum →
      ((precompute_problem courses participants).adjacency_matrix.getD x
          []).getD y 0 =
        (if x < participants.length
         then choice_weight (participants.getD x default)
           ((course_map_from 0 courses).getD y 0)
         else 0) := by
    intro x hx y hy
    have hmat : (precompute_problem courses participants).adjacency_matrix =
        (List.range ((courses.map Course.num_max).sum)).map (fun x =>
          (List.range ((courses.map Course.num_max).sum)).map (fun y =>
            if x < participants.length
            then choice_weight (participants.getD x default)
              ((course_map_from 0 courses).getD y 0)
            else 0)) := rfl
    rw [hmat, getD_range_map _ _ _ _ hx, getD_range_map _ _ _ _ hy]
  refine ⟨?_, ?_, ?_⟩
  · intro x hx y hy
    have hxn : x < (courses.map Course.num_max).sum := lt_of_lt_of_le hx hPN
    rw [hcmap]
    constructor
    · intro k hk hget hmin
      rw [hentry x hxn y hy, if_pos hx]
      have hpos := choice_position_eq_some_of
        ((course_map_from 0 courses).getD y 0)
        (participants.getD x default).choices k hk hget hmin
      unfold choice_weight
      rw [hpos]
    · intro hnot
      rw [hentry x hxn y hy, if_pos hx]
      have hnone := choice_position_eq_none_of
        ((course_map_from 0 courses).getD y 0)
        (participants.getD x default).choices hnot
      unfold choice_weight
      rw [hnone]
  · intro x hPx hxn y hy
    rw [hentry x hxn y hy, if_neg (by omega)]
  · intro x hx
    have hdummy : (precompute_problem courses participants).dummy_x =
        (List.range ((courses.map Course.num_max).sum)).map
          (fun x => decide (participants.length ≤ x)) := rfl
    rw [hdummy, getD_range_map _ _ _ _ hx]
    simp

/-- Claim C5, witness: on a one-course (num_max = 2), one-participant
problem whose participant chose course 0, the theorem's weight-table case
yields entry `WEIGHT_OFFSET` at row 0, column 0. -/
theorem precompute_problem_weights_witness :
    ((precompute_problem [⟨0, 0, "A", 2, 1, []⟩]
        [⟨0, 0, "p", [0]⟩]).adjacency_matrix.getD 0 []).getD 0 0 =
      WEIGHT_OFFSET := by
  have h := precompute_problem_weights [⟨0, 0, "A", 2, 1, []⟩]
    [⟨0, 0, "p", [0]⟩] (by decide)
  have h2 := (h.1 0 (by decide) 0 (by decide)).1 0 (by decide) (by decide)
    (fun k' hk' => absurd hk' (by omega))
  simpa using h2

/-- Claim C8: `create_simple_problem` returns exactly 6 participants and 3
courses whose (num_min, num_max) capacity pairs are (2,2), (2,8) and (2,10)
in course order, and whose instructor sets are {0}, {1} and {2} — the first
three participants, one instructor per course. -/
theorem create_simple_problem_spec :
    create_simple_problem.1.length = 6 ∧
    create_simple_problem.2.length = 3 ∧
    create_simple_problem.2.map (fun c => (c.num_min, c.num_max)) =
      [(2, 2), (2, 8), (2, 10)] ∧
    create_simple_problem.2.map Course.instructors = [[0], [1], [2]] :=
  ⟨rfl, rfl, rfl, rfl⟩

/-- Claim C9: `assert_data_consitency` returns normally (the embedding
returns `true`) iff every participant's `index` field equals its position,
every course's `index` field equals its position, every choice index is
below the course count and every instructor index is below the participant
count; on any violation the Rust function panics (the embedding returns
`false`). -/
theorem assert_data_consitency_iff (participants : List Participant) (courses : List Course) :
    assert_data_consitency participants courses = true ↔
      ((∀ i, i < participants.length → (participants.getD i default).index = i) ∧
       (∀ i, i < participants.length →
          ∀ c ∈ (participants.getD i default).choices, c < courses.length) ∧
       (∀ i, i < courses.length → (courses.getD i default).index = i) ∧
       (∀ i, i < courses.length →
          ∀ p ∈ (courses.getD i default).instructors, p < participants.length)) := by
  unfold assert_data_consitency
  simp only [Bool.and_eq_true, List.all_eq_true, List.mem_range, beq_iff_eq,
    decide_eq_true_eq]
  constructor
  · rintro ⟨hp, hc⟩
    exact ⟨fun i hi => (hp i hi).1, fun i hi => (hp i hi).2,
      fun i hi => (hc i hi).1, fun i hi => (hc i hi).2⟩
  · rintro ⟨h1, h2, h3, h4⟩
    exact ⟨fun i hi => ⟨h1 i hi, h2 i hi⟩, fun i hi => ⟨h3 i hi, h4 i hi⟩⟩

/-- Concatenation of a list of strings; the declarative shape against which
the imperative string building of `format_assignment` is verified. -/
def joinStrings : List String → String
  | [] => ""
  | s :: rest => s ++ joinStrings rest

/-- The text `format_assignment` produces for one course: the header line
followed by one line per assigned participant, in increasing participant
order, with the " (instr)" suffix exactly for positions in the course's
instructor list. -/
def course_block (assignment : Assignment) (participants : List Participant)
    (c : Course) : String :=
  "\n===== " ++ c.name ++ " =====\n" ++
    joinStrings
      (((List.range assignment.length).filter
          (fun ap => assignment.getD ap 0 == c.index)).map
        (fun ap => (participants.getD ap default).name ++
          (if c.instructors.contains ap then " (instr)" else "") ++ "\n"))

/-- The inner loop of `format_assignment` appends exactly the lines of the
participants whose assigned course index matches, in list order. -/
theorem format_assignment_inner (assignment : Assignment)
    (participants : List Participant) (c : Course) :
    ∀ (l : List Nat) (init : String),
      l.foldl
        (fun result ap =>
          if assignment.getD ap 0 == c.index then
            result ++ (participants.getD ap default).name ++
              (if c.instructors.contains ap then " (instr)" else "") ++ "\n"
          else result) init =
      init ++ joinStrings
        ((l.filter (fun ap => assignment.getD ap 0 == c.index)).map
          (fun ap => (participants.getD ap default).name ++
            (if c.instructors.contains ap then " (instr)" else "") ++ "\n")) := by
  intro l
  induction l with
  | nil => intro init; simp [joinStrings, String.append_empty]
  | cons a rest ih =>
    intro init
    by_cases ha : (assignment.getD a 0 == c.index) = true
    · have hfilter :
          List.filter (fun ap => assignment.getD ap 0 == c.index) (a :: rest) =
            a :: List.filter (fun ap => assignment.getD ap 0 == c.index) rest :=
        List.filter_cons_of_pos ha
      rw [List.foldl_cons, if_pos ha, ih, hfilter]
      simp only [List.map_cons, joinStrings, String.append_assoc]
    · have hfilter :
          List.filter (fun ap => assignment.getD ap 0 == c.index) (a :: rest) =
            List.filter (fun ap => assignment.getD ap 0 == c.index) rest :=
        List.filter_cons_of_neg ha
      rw [List.foldl_cons, if_neg ha, ih, hfilter]

/-- The outer loop of `format_assignment` appends one course block per
course, in course order. -/
theorem format_assignment_outer (assignment : Assignment)
    (participants : List Participant) :
    ∀ (cs : List Course) (init : String),
      cs.foldl
        (fun result c =>
          (List.range assignment.length).foldl
            (fun result ap =>
              if assignment.getD ap 0 == c.index then
                result ++ (participants.getD ap default).name ++
                  (if c.instructors.contains ap then " (instr)" else "") ++ "\n"
              else result)
            (result ++ "\n===== " ++ c.name ++ " =====\n")) init =
      init ++ joinStrings (cs.map (course_block assignment participants)) := by
  intro cs
  induction cs with
  | nil => intro init; simp [joinStrings, String.append_empty]
  | cons c rest ih =>
    intro init
    rw [List.foldl_cons, format_assignment_inner, ih]
    simp [joinStrings, course_block, String.append_assoc]

/-- Claim C10: for an assignment no longer than the participant list,
`format_assignment` produces, for each course in list order, the header
"\n===== name =====\n" followed by exactly the names of the participants
whose assigned course index equals the course's `index` field, in
increasing participant order, each suffixed with " (instr)" precisely when
their position occurs in the course's instructor list; participants whose
assigned index matches no course's `index` field appear in no block. -/
theorem format_assignment_spec (assignment : Assignment) (courses : List Course)
    (participants : List Participant)
    (_h : assignment.length ≤ participants.length) :
    format_assignment assignment courses participants =
      joinStrings (courses.map (course_block assignment participants)) := by
  unfold format_assignment
  rw [format_assignment_outer assignment participants courses ""]
  exact String.empty_append _

/-- Claim C10, witness: the specification theorem applied to a concrete
one-course, one-participant input, where the participant is also the
course's instructor. -/
theorem format_assignment_spec_witness :
    format_assignment [0] [⟨0, 0, "A", 1, 1, [0]⟩] [⟨0, 0, "P", [0]⟩] =
      "\n===== A =====\nP (instr)\n" := by
  rw [format_assignment_spec [0] [⟨0, 0, "A", 1, 1, [0]⟩] [⟨0, 0, "P", [0]⟩]
    (by decide)]
  rfl

end Cdecao
